import Mathlib

/-!
Verification of the control-plane engine of a DNS resolver daemon
(src/daemon/engine.c, src/daemon/main.c).

The development shallowly embeds the C code:

* the module registry (`engine_register`, `engine_unregister`, `module_find`)
  acts on a `List kr_module`; the `memmove` splice of the precedence operator
  is rendered index-exactly as `memmove_splice`;
* the Lua/JSON marshalling pair (`l_pack_elem`, `l_unpack_json`) acts on
  mutual inductive renderings of Lua values and JSON trees (Lua tables are
  association sequences whose order is the `lua_next` iteration order);
* the worker broadcast `l_map` is rendered as the fold that builds the reply
  table, with each sibling's pipe I/O outcome summarised by a record of the
  results of the five checked calls of the loop body;
* `engine_init`, `engine_stop` and `engine_cmd` are rendered with explicit
  event traces, since their interesting content is which effects run and in
  which order.

External collaborators (libuv, the Lua interpreter, `kr_module_load`,
`ffimodule_register_lua`, `json_decode`) are parameters of the definitions;
everything that lives in engine.c itself is translated clause by clause.
-/

namespace KnotResolver

/-! ### Error codes (lib/defines.h renders errors as negated errno values) -/

def ENOENT : Nat := 2
def ENOEXEC : Nat := 8
def ENOMEM : Nat := 12
def EINVAL : Nat := 22
def EIDRM : Nat := 43

def kr_ok : Int := 0

def kr_error (x : Nat) : Int := -(x : Int)

/-! ### Module registry

`struct kr_module` carries a name, callbacks and opaque data; only the name
is relevant to list placement, lookup and unregistration, so the embedding
keeps the name field. -/

structure kr_module where
  name : String
  deriving DecidableEq, Repr

/-- Translation of `module_find` (engine.c): linear scan returning the index
of the first module with the given name, or the length of the list when no
module matches. -/
def module_find (mod_list : List kr_module) (name : String) : Nat :=
  match mod_list with
  | [] => 0
  | m :: rest => if m.name = name then 0 else module_find rest name + 1

/-- Translation of `engine_unregister` (engine.c): find the first module with
the given name; when found, unload it and delete its slot (`array_del`, which
shifts later entries down); otherwise return `kr_error(ENOENT)` with the list
untouched. -/
def engine_unregister (mods : List kr_module) (name : String) :
    List kr_module × Int :=
  let found := module_find mods name
  if found < mods.length then (mods.eraseIdx found, kr_ok)
  else (mods, kr_error ENOENT)

/-- Translation of the tail `memmove` of `engine_register`: with the freshly
pushed module sitting in the last slot of `arr`, when `emplacement + 1 <
arr.length` the elements from `emplacement` up to the second-to-last slot move
up by one and the module is written at `emplacement`; otherwise nothing
happens (the module stays at the end). -/
def memmove_splice (arr : List kr_module) (emplacement : Nat)
    (module : kr_module) : List kr_module :=
  if emplacement + 1 < arr.length then
    arr.take emplacement ++ module :: (arr.drop emplacement).dropLast
  else arr

/-- Translation of `engine_register` (engine.c).  `load name` stands for the
combined outcome of `kr_module_load` followed (on `ENOENT`) by
`ffimodule_register_lua`, both external to engine.c: `0` means the plugin was
found and initialised, any other value is the error returned.  The C
`strcasecmp` against the one-character operators is plain string equality.
The `engine == NULL`/`name == NULL` guard (EINVAL) and the `malloc`/
`array_push` allocation failures (ENOMEM) concern pointers and the allocator
and are not modelled.  `register_properties` always returns `kr_ok`, so both
success exits return `kr_ok`. -/
def engine_register (load : String → Int) (mods : List kr_module)
    (name : String) (precedence : Option String) (ref : Option String) :
    List kr_module × Int :=
  -- engine_register first makes sure any module of the same name is unloaded
  let mods1 := (engine_unregister mods name).1
  -- the reference is looked up before the load attempt; a missing reference
  -- aborts with kr_error(EIDRM)
  let ref_found : Option Nat :=
    match precedence, ref with
    | some _, some r =>
        let ref_pos := module_find mods1 r
        if ref_pos ≥ mods1.length then none else some ref_pos
    | _, _ => some mods1.length
  match ref_found with
  | none => (mods1, kr_error EIDRM)
  | some ref_pos =>
      let ret := load name
      if ret ≠ 0 then (mods1, ret)
      else
        let module : kr_module := { name := name }
        let mods2 := mods1 ++ [module]
        match precedence with
        | none => (mods2, kr_ok)
        | some p =>
            let empl0 := mods2.length
            let empl1 :=
              if p = ">" ∧ ref_pos + 1 < mods2.length then ref_pos + 1
              else empl0
            let empl2 := if p = "<" then ref_pos else empl1
            (memmove_splice mods2 empl2 module, kr_ok)

/-! ### Registry helper lemmas -/

theorem module_find_le (mods : List kr_module) (name : String) :
    module_find mods name ≤ mods.length := by
  induction mods with
  | nil => simp [module_find]
  | cons m rest ih =>
      by_cases h : m.name = name
      · simp [module_find, h]
      · simp only [module_find, h, if_false, List.length_cons]
        omega

theorem module_find_eq_length_iff (mods : List kr_module) (name : String) :
    module_find mods name = mods.length ↔ name ∉ mods.map kr_module.name := by
  induction mods with
  | nil => simp [module_find]
  | cons m rest ih =>
      by_cases hm : m.name = name
      · constructor
        · intro h
          simp [module_find, hm] at h
        · intro h
          exact absurd (by simp [hm] : name ∈ (m :: rest).map kr_module.name) h
      · simp only [module_find, hm, if_false, List.map_cons, List.mem_cons,
          List.length_cons]
        rw [Nat.add_right_cancel_iff, ih]
        constructor
        · intro h hmem
          rcases hmem with h1 | h1
          · exact hm h1.symm
          · exact h h1
        · intro h hmem; exact h (Or.inr hmem)

theorem module_find_lt_length_iff (mods : List kr_module) (name : String) :
    module_find mods name < mods.length ↔ name ∈ mods.map kr_module.name := by
  have hle := module_find_le mods name
  have hiff := module_find_eq_length_iff mods name
  constructor
  · intro h
    by_contra hmem
    rw [← hiff] at hmem
    omega
  · intro h
    rcases Nat.lt_or_ge (module_find mods name) mods.length with h1 | h1
    · exact h1
    · have : module_find mods name = mods.length := le_antisymm hle h1
      rw [hiff] at this
      exact absurd h this

theorem engine_unregister_not_found (mods : List kr_module) (name : String)
    (h : name ∉ mods.map kr_module.name) :
    engine_unregister mods name = (mods, kr_error ENOENT) := by
  have hfind : module_find mods name = mods.length :=
    (module_find_eq_length_iff mods name).2 h
  simp [engine_unregister, hfind]

theorem insertIdx_eq_take_cons_drop {α : Type} (l : List α) (n : Nat) (a : α)
    (h : n ≤ l.length) : l.insertIdx n a = l.take n ++ a :: l.drop n := by
  induction l generalizing n with
  | nil =>
      have : n = 0 := by simpa using h
      subst this; simp
  | cons x xs ih =>
      cases n with
      | zero => simp
      | succ m =>
          simp only [List.insertIdx_succ_cons, List.take_succ_cons,
            List.drop_succ_cons, List.cons_append, List.cons.injEq, true_and]
          exact ih m (by simpa using h)

theorem memmove_splice_append (mods : List kr_module) (m : kr_module)
    (i : Nat) (h : i < mods.length) :
    memmove_splice (mods ++ [m]) i m = mods.insertIdx i m := by
  have hcond : i + 1 < (mods ++ [m]).length := by
    simp [List.length_append]; omega
  have hle : i ≤ mods.length := Nat.le_of_lt h
  simp only [memmove_splice, hcond, if_true]
  rw [List.take_append_of_le_length hle, List.drop_append_of_le_length hle,
    List.dropLast_concat, insertIdx_eq_take_cons_drop mods i m hle]

/-- C1: registering a new module B with precedence "before" an existing module
A (C operator "<") plants B at A's old index: the result is exactly
`insertIdx`, the length grows by one, B sits at index `i`, every module before
A keeps its index, and A and all its successors move up by one slot. -/
theorem engine_register_before_splices_at_ref (load : String → Int)
    (mods : List kr_module) (bname rname : String) (i : Nat)
    (hload : load bname = 0)
    (hfresh : bname ∉ mods.map kr_module.name)
    (href : module_find mods rname = i)
    (hlt : i < mods.length) :
    (engine_register load mods bname (some "<") (some rname)).2 = kr_ok ∧
    (engine_register load mods bname (some "<") (some rname)).1 =
      mods.insertIdx i ⟨bname⟩ ∧
    (engine_register load mods bname (some "<") (some rname)).1.length =
      mods.length + 1 ∧
    (engine_register load mods bname (some "<") (some rname)).1[i]? =
      some ⟨bname⟩ ∧
    (∀ j, j < i →
      (engine_register load mods bname (some "<") (some rname)).1[j]? =
        mods[j]?) ∧
    (∀ j, i ≤ j → j < mods.length →
      (engine_register load mods bname (some "<") (some rname)).1[j + 1]? =
        mods[j]?) := by
  have hunreg : (engine_unregister mods bname).1 = mods := by
    rw [engine_unregister_not_found mods bname hfresh]
  have hnotge : ¬ i ≥ mods.length := by omega
  have hmain :
      engine_register load mods bname (some "<") (some rname) =
        (mods.insertIdx i ⟨bname⟩, kr_ok) := by
    simp only [engine_register, hunreg, href, hnotge, if_false, hload]
    norm_num
    rw [memmove_splice_append mods ⟨bname⟩ i hlt]
  rw [hmain]
  have hle : i ≤ mods.length := Nat.le_of_lt hlt
  have hlen : (mods.insertIdx i (⟨bname⟩ : kr_module)).length =
      mods.length + 1 := List.length_insertIdx i mods hle
  refine ⟨rfl, rfl, hlen, ?_, ?_, ?_⟩
  · have hi : i < (mods.insertIdx i (⟨bname⟩ : kr_module)).length := by omega
    rw [List.getElem?_eq_getElem hi, List.getElem_insertIdx_self mods ⟨bname⟩ i hle]
  · intro j hj
    have hj2 : j < mods.length := Nat.lt_of_lt_of_le hj hle
    have hj3 : j < (mods.insertIdx i (⟨bname⟩ : kr_module)).length := by omega
    rw [List.getElem?_eq_getElem hj3, List.getElem?_eq_getElem hj2,
      List.getElem_insertIdx_of_lt mods ⟨bname⟩ i j hj hj2]
  · intro j hij hj
    obtain ⟨k, rfl⟩ : ∃ k, j = i + k := ⟨j - i, by omega⟩
    have hj3 : i + k + 1 < (mods.insertIdx i (⟨bname⟩ : kr_module)).length := by
      omega
    rw [List.getElem?_eq_getElem hj3, List.getElem?_eq_getElem hj]
    exact congrArg some
      (List.getElem_insertIdx_add_succ mods ⟨bname⟩ i k hj (by omega))

/-- Witness for C1 at a concrete input: registry [A, C], registering B before
A yields [B, A, C]. -/
theorem engine_register_before_splices_at_ref_witness :
    (engine_register (fun _ => 0) [⟨"A"⟩, ⟨"C"⟩] "B" (some "<")
      (some "A")).1 = [⟨"B"⟩, ⟨"A"⟩, ⟨"C"⟩] := by
  have h := engine_register_before_splices_at_ref (fun _ => 0)
    [⟨"A"⟩, ⟨"C"⟩] "B" "A" 0 rfl (by decide) (by decide) (by decide)
  rw [h.2.1]
  decide

/-! ### C3: failure behaviour of engine_register

`engine_register` starts with `(void) engine_unregister(engine, name)`, so a
previously registered module of the same name is torn down before the load is
even attempted; a subsequent load failure does not restore it. -/

theorem engine_register_none_fst (load : String → Int)
    (mods : List kr_module) (n : String) :
    (engine_register load mods n none none).1 =
      if load n = 0 then (engine_unregister mods n).1 ++ [⟨n⟩]
      else (engine_unregister mods n).1 := by
  by_cases h : load n = 0 <;> simp [engine_register, h]

/-- C3 counterexample: with module A registered and a loader that fails on
re-load (neither a binary nor a scripted plugin is found), re-registering A
returns the error but has dropped A from the list, so the state differs from
the state before the call. -/
theorem engine_register_failure_drops_previous_module :
    engine_register (fun _ => kr_error ENOENT) [⟨"A"⟩] "A" none none =
      ([], kr_error ENOENT) ∧
    ([] : List kr_module) ≠ [⟨"A"⟩] := by
  constructor
  · decide
  · decide

/-- C3 amended: when the plugin load fails, registration returns the load
error and the module list is the prior list with any previously registered
module of the same name already removed; in particular the list is unchanged
exactly in the case that no module of that name was registered before the
call. -/
theorem engine_register_load_failure (load : String → Int)
    (mods : List kr_module) (name : String) (h : load name ≠ 0) :
    engine_register load mods name none none =
      ((engine_unregister mods name).1, load name) ∧
    (name ∉ mods.map kr_module.name →
      (engine_register load mods name none none).1 = mods) := by
  constructor
  · simp [engine_register, h]
  · intro hmem
    simp [engine_register, h, engine_unregister_not_found mods name hmem]

/-- Witness for C3's amended theorem: a loader failing with -2 on a registry
holding A: re-registering A loses A, registering fresh B leaves the registry
unchanged. -/
theorem engine_register_load_failure_witness :
    engine_register (fun _ => (-2 : Int)) [⟨"A"⟩] "A" none none =
      ([], -2) ∧
    (engine_register (fun _ => (-2 : Int)) [⟨"A"⟩] "B" none none).1 =
      [⟨"A"⟩] := by
  constructor
  · have h := (engine_register_load_failure (fun _ => (-2 : Int)) [⟨"A"⟩]
      "A" (by decide)).1
    rw [h]; decide
  · exact (engine_register_load_failure (fun _ => (-2 : Int)) [⟨"A"⟩]
      "B" (by decide)).2 (by decide)

/-! ### C8: sequences of register/unregister calls -/

inductive EngineOp where
  | register (name : String)
  | unregister (name : String)
  deriving DecidableEq, Repr

/-- Effect of one administrative call on the module list.  Registration uses
no precedence directive; `load` models plugin availability for the whole
sequence. -/
def applyOp (load : String → Int) (mods : List kr_module) :
    EngineOp → List kr_module
  | .register n => (engine_register load mods n none none).1
  | .unregister n => (engine_unregister mods n).1

def applyOps (load : String → Int) (mods : List kr_module)
    (ops : List EngineOp) : List kr_module :=
  ops.foldl (applyOp load) mods

def regNames : List EngineOp → List String
  | [] => []
  | .register n :: rest => n :: regNames rest
  | .unregister _ :: rest => regNames rest

def unregNames : List EngineOp → List String
  | [] => []
  | .register _ :: rest => unregNames rest
  | .unregister n :: rest => n :: unregNames rest

def memString (n : String) : List String → Bool
  | [] => false
  | m :: rest => (n == m) || memString n rest

/-- Well-formedness of a call sequence: no name is registered after it has
been unregistered (each unregister call, if it matches a register call at
all, comes later than it). -/
def noRegAfterUnreg : List EngineOp → Bool
  | [] => true
  | .register _ :: rest => noRegAfterUnreg rest
  | .unregister n :: rest => !(memString n (regNames rest)) && noRegAfterUnreg rest

theorem memString_iff (n : String) (l : List String) :
    memString n l = true ↔ n ∈ l := by
  induction l with
  | nil => simp [memString]
  | cons m rest ih =>
      simp [memString, ih, beq_iff_eq]

theorem engine_unregister_eq (mods : List kr_module) (name : String) :
    engine_unregister mods name =
      if module_find mods name < mods.length
      then (mods.eraseIdx (module_find mods name), kr_ok)
      else (mods, kr_error ENOENT) := rfl

theorem filter_ne_of_not_mem (l : List String) (n : String) (h : n ∉ l) :
    l.filter (fun m => !(m == n)) = l := by
  rw [List.filter_eq_self]
  intro a ha
  have hne : a ≠ n := fun heq => h (heq ▸ ha)
  simp [hne]

/-- Names remaining after `engine_unregister`: with unique names, exactly the
old names minus the requested one. -/
theorem engine_unregister_names (mods : List kr_module) (name : String)
    (h : (mods.map kr_module.name).Nodup) :
    ((engine_unregister mods name).1).map kr_module.name =
      (mods.map kr_module.name).filter (fun m => !(m == name)) := by
  induction mods with
  | nil => simp [engine_unregister, module_find]
  | cons m rest ih =>
      have htail : (rest.map kr_module.name).Nodup := (List.nodup_cons.1 h).2
      have hhead : m.name ∉ rest.map kr_module.name := (List.nodup_cons.1 h).1
      by_cases hm : m.name = name
      · have hfind : module_find (m :: rest) name = 0 := by
          simp [module_find, hm]
        have : engine_unregister (m :: rest) name = (rest, kr_ok) := by
          simp [engine_unregister, hfind]
        rw [this]
        have hnot : name ∉ rest.map kr_module.name := hm ▸ hhead
        rw [List.map_cons, List.filter_cons]
        simp only [hm, beq_self_eq_true, Bool.not_true, if_false]
        exact (filter_ne_of_not_mem _ name hnot).symm
      · by_cases hrest : module_find rest name < rest.length
        · have hfound : module_find (m :: rest) name < (m :: rest).length := by
            simp only [module_find, hm, if_false, List.length_cons]
            omega
          have hfind : module_find (m :: rest) name =
              module_find rest name + 1 := by
            simp [module_find, hm]
          have hstep : engine_unregister (m :: rest) name =
              (m :: (rest.eraseIdx (module_find rest name)), kr_ok) := by
            rw [engine_unregister_eq, if_pos hfound, hfind]
            rfl
          have htailstep : (engine_unregister rest name).1 =
              rest.eraseIdx (module_find rest name) := by
            simp [engine_unregister, hrest]
          rw [hstep]
          rw [List.map_cons, List.map_cons, List.filter_cons]
          have hmne : (!(m.name == name)) = true := by
            simp [hm]
          simp only [hmne, if_true]
          rw [← htailstep, ih htail]
        · have hlen : module_find rest name = rest.length :=
            le_antisymm (module_find_le rest name) (Nat.le_of_not_lt hrest)
          have hnomem : name ∉ rest.map kr_module.name :=
            (module_find_eq_length_iff rest name).1 hlen
          have hnofind : ¬ module_find (m :: rest) name <
              (m :: rest).length := by
            simp only [module_find, hm, if_false, List.length_cons, hlen]
            omega
          have : engine_unregister (m :: rest) name =
              (m :: rest, kr_error ENOENT) := by
            rw [engine_unregister_eq, if_neg hnofind]
          rw [this]
          have hnomem2 : name ∉ (m :: rest).map kr_module.name := by
            simp only [List.map_cons, List.mem_cons]
            intro hc
            rcases hc with hc | hc
            · exact hm hc.symm
            · exact hnomem hc
          exact (filter_ne_of_not_mem _ name hnomem2).symm

theorem not_mem_unregister_names (mods : List kr_module) (name : String)
    (h : (mods.map kr_module.name).Nodup) :
    name ∉ ((engine_unregister mods name).1).map kr_module.name := by
  rw [engine_unregister_names mods name h]
  intro hmem
  have := List.of_mem_filter hmem
  simp at this

theorem unregister_names_nodup (mods : List kr_module) (name : String)
    (h : (mods.map kr_module.name).Nodup) :
    (((engine_unregister mods name).1).map kr_module.name).Nodup := by
  rw [engine_unregister_names mods name h]
  exact h.filter _

/-- Uniqueness of registered names is preserved by every single call. -/
theorem applyOp_names_nodup (load : String → Int) (mods : List kr_module)
    (op : EngineOp) (h : (mods.map kr_module.name).Nodup) :
    ((applyOp load mods op).map kr_module.name).Nodup := by
  cases op with
  | unregister n => exact unregister_names_nodup mods n h
  | register n =>
      have hnodup1 := unregister_names_nodup mods n h
      have hnotmem := not_mem_unregister_names mods n h
      simp only [applyOp, engine_register_none_fst]
      by_cases hl : load n = 0
      · simp only [hl, if_true, List.map_append]
        rw [List.nodup_append]
        refine ⟨hnodup1, by simp, ?_⟩
        intro a ha hb
        simp at hb
        subst hb
        exact hnotmem ha
      · simp only [hl, if_false]
        exact hnodup1

/-- C8 part 1 helper: the uniqueness invariant holds after any sequence. -/
theorem applyOps_names_nodup (load : String → Int) (ops : List EngineOp) :
    ∀ mods : List kr_module, (mods.map kr_module.name).Nodup →
      ((applyOps load mods ops).map kr_module.name).Nodup := by
  induction ops with
  | nil => intro mods h; exact h
  | cons op rest ih =>
      intro mods h
      exact ih (applyOp load mods op) (applyOp_names_nodup load mods op h)

theorem filter_and (l : List String) (p q : String → Bool) :
    (l.filter q).filter p = l.filter (fun a => q a && p a) := by
  induction l with
  | nil => rfl
  | cons a l ih =>
      by_cases hq : q a <;> by_cases hp : p a <;>
        simp [List.filter_cons, hq, hp, ih]

/-- Registry contents after a well-formed call sequence, generalised over the
starting registry: old names survive unless unregistered, and the successful
fresh registrations are appended in call order unless unregistered later. -/
theorem applyOps_names_characterization (load : String → Int)
    (ops : List EngineOp) :
    ∀ mods : List kr_module,
      (mods.map kr_module.name).Nodup →
      noRegAfterUnreg ops = true →
      (regNames ops).Nodup →
      (∀ n, n ∈ regNames ops → n ∉ mods.map kr_module.name) →
      (applyOps load mods ops).map kr_module.name =
        (mods.map kr_module.name).filter
          (fun m => !(memString m (unregNames ops))) ++
        (regNames ops).filter
          (fun n => (load n == 0) && !(memString n (unregNames ops))) := by
  induction ops with
  | nil =>
      intro mods _ _ _ _
      simp [applyOps, regNames, unregNames, memString]
  | cons op rest ih =>
      intro mods hnodup hwf hreg hfresh
      cases op with
      | register n =>
          have hwr : noRegAfterUnreg rest = true := hwf
          have hregr : (regNames rest).Nodup ∧ n ∉ regNames rest := by
            have := hreg
            simp only [regNames, List.nodup_cons] at this
            exact ⟨this.2, this.1⟩
          have hfr : n ∉ mods.map kr_module.name :=
            hfresh n (by simp [regNames])
          have hunreg : (engine_unregister mods n).1 = mods := by
            rw [engine_unregister_not_found mods n hfr]
          have hstep : applyOps load mods (EngineOp.register n :: rest) =
              applyOps load
                (if load n = 0 then mods ++ [⟨n⟩] else mods) rest := by
            simp only [applyOps, List.foldl_cons, applyOp,
              engine_register_none_fst, hunreg]
          rw [hstep]
          simp only [regNames, unregNames]
          by_cases hl : load n = 0
          · rw [if_pos hl]
            have hnames : (mods ++ [(⟨n⟩ : kr_module)]).map kr_module.name =
                mods.map kr_module.name ++ [n] := by simp
            have hih := ih (mods ++ [⟨n⟩])
              (by rw [hnames, List.nodup_append]
                  refine ⟨hnodup, by simp, ?_⟩
                  intro a ha hb
                  simp at hb
                  subst hb
                  exact hfr ha)
              hwr hregr.1
              (by intro m hm
                  rw [hnames]
                  simp only [List.mem_append, List.mem_singleton]
                  intro hc
                  rcases hc with hc | hc
                  · exact hfresh m (by simp [regNames, hm]) hc
                  · subst hc; exact hregr.2 hm)
            rw [hih, hnames, List.filter_append]
            simp only [List.filter_cons, List.filter_nil]
            have hln : (load n == 0) = true := by simp [hl]
            simp only [hln, Bool.true_and]
            by_cases hmemn : memString n (unregNames rest) = true
            · simp [hmemn]
            · have hmf : memString n (unregNames rest) = false := by
                simpa using hmemn
              simp [hmf]
          · rw [if_neg hl]
            have hih := ih mods hnodup hwr hregr.1
              (fun m hm => hfresh m (by simp [regNames, hm]))
            rw [hih, List.filter_cons]
            have hln : (load n == 0) = false := by simp [hl]
            simp [hln]
      | unregister n =>
          have hsplit : (!(memString n (regNames rest))) = true ∧
              noRegAfterUnreg rest = true := by
            have h2 := hwf
            simp only [noRegAfterUnreg, Bool.and_eq_true] at h2
            exact h2
          have hwr : noRegAfterUnreg rest = true := hsplit.2
          have hnr : n ∉ regNames rest := by
            intro hc
            have hms : memString n (regNames rest) = false := by
              simpa using hsplit.1
            rw [(memString_iff n (regNames rest)).2 hc] at hms
            simp at hms
          have hregr : (regNames rest).Nodup := hreg
          have hstep : applyOps load mods (EngineOp.unregister n :: rest) =
              applyOps load ((engine_unregister mods n).1) rest := rfl
          rw [hstep]
          have hnames := engine_unregister_names mods n hnodup
          have hih := ih ((engine_unregister mods n).1)
            (by rw [hnames]; exact hnodup.filter _)
            hwr hregr
            (by intro m hm hc
                rw [hnames] at hc
                exact hfresh m (by simp [regNames, hm])
                  (List.mem_of_mem_filter hc))
          rw [hih, hnames]
          simp only [regNames, unregNames]
          have hleft :
              ((mods.map kr_module.name).filter
                  (fun m => !(m == n))).filter
                (fun m => !(memString m (unregNames rest))) =
              (mods.map kr_module.name).filter
                (fun m => !(memString m (n :: unregNames rest))) := by
            rw [filter_and]
            apply List.filter_congr
            intro a _
            simp [memString, Bool.not_or]
          have hright :
              (regNames rest).filter
                (fun m => (load m == 0) &&
                  !(memString m (unregNames rest))) =
              (regNames rest).filter
                (fun m => (load m == 0) &&
                  !(memString m (n :: unregNames rest))) := by
            apply List.filter_congr
            intro a ha
            have hane : a ≠ n := fun heq => hnr (heq ▸ ha)
            have hb : (a == n) = false := by simp [hane]
            simp [memString, Bool.not_or, hb]
          rw [hleft, hright]

/-- C8: for every well-formed finite sequence of register/unregister calls
with unique register names starting from the empty registry, the registered
names are unique after every step, and the final name list is exactly the
successful register names minus the unregistered ones, in registration order
with no duplicates and no leftover entry after a matching unregister. -/
theorem registry_register_unregister_sequences (load : String → Int)
    (ops : List EngineOp)
    (hwf : noRegAfterUnreg ops = true)
    (hreg : (regNames ops).Nodup) :
    (∀ p q : List EngineOp, ops = p ++ q →
      ((applyOps load [] p).map kr_module.name).Nodup) ∧
    (applyOps load [] ops).map kr_module.name =
      (regNames ops).filter
        (fun n => (load n == 0) && !(memString n (unregNames ops))) := by
  constructor
  · intro p q _
    exact applyOps_names_nodup load p [] (by simp)
  · have h := applyOps_names_characterization load ops []
      (by simp) hwf hreg (by intro n _ hc; simp at hc)
    simpa using h

/-- Witness for C8: register A, register B, unregister A leaves exactly B
registered, and names were unique at the intermediate step. -/
theorem registry_register_unregister_sequences_witness :
    ((applyOps (fun _ => 0) []
        [EngineOp.register "A", EngineOp.register "B"]).map
      kr_module.name).Nodup ∧
    (applyOps (fun _ => 0) []
        [EngineOp.register "A", EngineOp.register "B",
          EngineOp.unregister "A"]).map kr_module.name = ["B"] := by
  have h := registry_register_unregister_sequences (fun _ => 0)
    [EngineOp.register "A", EngineOp.register "B", EngineOp.unregister "A"]
    (by decide) (by decide)
  constructor
  · exact h.1 [EngineOp.register "A", EngineOp.register "B"]
      [EngineOp.unregister "A"] rfl
  · rw [h.2]; decide

/-! ### Lua/JSON marshalling (l_pack_elem, l_unpack_json)

Lua values are rendered with tables as association sequences whose order is
the `lua_next` iteration order; keys are numbers or strings (the two kinds
`l_pack_elem` distinguishes).  Lua numbers and JSON numbers cross the
boundary unchanged, so one numeric type `Int` stands for both.  JSON trees
mirror `JsonNode`: members of an object carry keys, elements of an array do
not. -/

inductive LuaKey where
  | num (n : Int)
  | str (s : String)
  deriving DecidableEq, Repr

mutual
inductive LuaValue where
  | str (s : String)
  | num (n : Int)
  | bool (b : Bool)
  | nil
  | table (es : LuaEntries)
  deriving DecidableEq, Repr

inductive LuaEntries where
  | nil
  | cons (k : LuaKey) (v : LuaValue) (rest : LuaEntries)
  deriving DecidableEq, Repr
end

mutual
inductive Json where
  | null
  | str (s : String)
  | num (n : Int)
  | bool (b : Bool)
  | arr (xs : JsonList)
  | obj (ms : JsonMembers)
  deriving DecidableEq, Repr

inductive JsonList where
  | nil
  | cons (j : Json) (rest : JsonList)
  deriving DecidableEq, Repr

inductive JsonMembers where
  | nil
  | cons (k : String) (j : Json) (rest : JsonMembers)
  deriving DecidableEq, Repr
end

/-- Discrimination used by `l_pack_elem`: `lua_type(L, top + 1) ==
LUA_TNUMBER` on the first iterated key. -/
def LuaKey.isNum : LuaKey → Bool
  | .num _ => true
  | .str _ => false

/-- Rendering of `lua_tostring` applied to a table key in the object branch
of `l_pack_elem` (a numeric key is converted to its decimal text). -/
def luaKeyToString : LuaKey → String
  | .num n => toString n
  | .str s => s

/-! Translation of `l_pack_elem` (engine.c): strings, numbers and booleans
map directly, every other non-table type maps to JSON null, the empty table
maps to the empty object, and a non-empty table becomes an array when the
first iterated key is a number (keys are then ignored) and an object
otherwise (keys are then stringified).  `l_pack_vals` and `l_pack_members`
are the two loop modes. -/
mutual
def l_pack_elem : LuaValue → Json
  | .str s => Json.str s
  | .num n => Json.num n
  | .bool b => Json.bool b
  | .nil => Json.null
  | .table .nil => Json.obj .nil
  | .table (.cons k v rest) =>
      if k.isNum then Json.arr (l_pack_vals (.cons k v rest))
      else Json.obj (l_pack_members (.cons k v rest))

def l_pack_vals : LuaEntries → JsonList
  | .nil => .nil
  | .cons _ v rest => .cons (l_pack_elem v) (l_pack_vals rest)

def l_pack_members : LuaEntries → JsonMembers
  | .nil => .nil
  | .cons k v rest =>
      .cons (luaKeyToString k) (l_pack_elem v) (l_pack_members rest)
end

/-! Translation of `l_unpack_json` (engine.c): strings, numbers and booleans
push directly; every other tag (null included) builds a table from the
children.  Inside the loop a null child hits the `default: continue` branch
and is skipped; an array child receives the key `lua_rawlen + 1`, which for
a table built this way is the running element count, and an object child is
stored under its member key (`lua_setfield`; decoded objects are treated as
distinct-keyed, which every tree produced by `l_pack_elem` from a
distinct-keyed table is). -/
mutual
def l_unpack_json : Json → LuaValue
  | .str s => .str s
  | .num n => .num n
  | .bool b => .bool b
  | .null => .table .nil
  | .arr xs => .table (l_unpack_arr 1 xs)
  | .obj ms => .table (l_unpack_obj ms)

def l_unpack_arr : Int → JsonList → LuaEntries
  | _, .nil => .nil
  | i, .cons .null rest => l_unpack_arr i rest
  | i, .cons j rest => .cons (.num i) (l_unpack_json j) (l_unpack_arr (i + 1) rest)

def l_unpack_obj : JsonMembers → LuaEntries
  | .nil => .nil
  | .cons _ .null rest => l_unpack_obj rest
  | .cons k j rest => .cons (.str k) (l_unpack_json j) (l_unpack_obj rest)
end

/-! ### The restricted round-trip domain of C5

Values built from strings, numbers, booleans, arrays of such (contiguous
numeric keys 1..n in iteration order) and objects of such (string keys,
pairwise distinct as in any Lua table). -/

def seqKeysFrom (i : Int) : LuaEntries → Bool
  | .nil => true
  | .cons k _ rest => (k == LuaKey.num i) && seqKeysFrom (i + 1) rest

def strKeyEntries : LuaEntries → Bool
  | .nil => true
  | .cons k _ rest => !k.isNum && strKeyEntries rest

def keyMem (k : LuaKey) : LuaEntries → Bool
  | .nil => false
  | .cons k2 _ rest => (k == k2) || keyMem k rest

def nodupKeys : LuaEntries → Bool
  | .nil => true
  | .cons k _ rest => !(keyMem k rest) && nodupKeys rest

mutual
def goodValue : LuaValue → Bool
  | .str _ => true
  | .num _ => true
  | .bool _ => true
  | .nil => false
  | .table es =>
      (seqKeysFrom 1 es || (strKeyEntries es && nodupKeys es)) &&
        goodEntries es

def goodEntries : LuaEntries → Bool
  | .nil => true
  | .cons _ v rest => goodValue v && goodEntries rest
end

theorem l_pack_elem_ne_null (v : LuaValue) (h : goodValue v = true) :
    l_pack_elem v ≠ Json.null := by
  cases v with
  | str s => simp [l_pack_elem]
  | num n => simp [l_pack_elem]
  | bool b => simp [l_pack_elem]
  | nil => simp [goodValue] at h
  | table es =>
      cases es with
      | nil => simp [l_pack_elem]
      | cons k v rest =>
          simp only [l_pack_elem]
          by_cases hk : k.isNum = true
          · simp [hk]
          · simp [hk]

theorem l_unpack_arr_cons_ne_null (i : Int) (j : Json) (rest : JsonList)
    (h : j ≠ Json.null) :
    l_unpack_arr i (.cons j rest) =
      .cons (.num i) (l_unpack_json j) (l_unpack_arr (i + 1) rest) := by
  cases j with
  | null => exact absurd rfl h
  | str s => rfl
  | num n => rfl
  | bool b => rfl
  | arr xs => rfl
  | obj ms => rfl

theorem l_unpack_obj_cons_ne_null (k : String) (j : Json)
    (rest : JsonMembers) (h : j ≠ Json.null) :
    l_unpack_obj (.cons k j rest) =
      .cons (.str k) (l_unpack_json j) (l_unpack_obj rest) := by
  cases j with
  | null => exact absurd rfl h
  | str s => rfl
  | num n => rfl
  | bool b => rfl
  | arr xs => rfl
  | obj ms => rfl

mutual
theorem roundtrip_val (v : LuaValue) (h : goodValue v = true) :
    l_unpack_json (l_pack_elem v) = v := by
  cases v with
  | str s => rfl
  | num n => rfl
  | bool b => rfl
  | nil => simp [goodValue] at h
  | table es =>
      cases es with
      | nil => rfl
      | cons k v rest =>
          have hsplit : (seqKeysFrom 1 (.cons k v rest) ||
                (strKeyEntries (.cons k v rest) &&
                  nodupKeys (.cons k v rest))) = true ∧
              goodEntries (.cons k v rest) = true := by
            have h2 := h
            simp only [goodValue, Bool.and_eq_true] at h2
            exact h2
          by_cases hk : k.isNum = true
          · have hseq : seqKeysFrom 1 (.cons k v rest) = true := by
              have hor := hsplit.1
              rw [Bool.or_eq_true] at hor
              rcases hor with hs | hs
              · exact hs
              · exfalso
                rw [Bool.and_eq_true] at hs
                have hstr := hs.1
                simp only [strKeyEntries, Bool.and_eq_true,
                  Bool.not_eq_true'] at hstr
                rw [hstr.1] at hk
                simp at hk
            have hpk : l_pack_elem (.table (.cons k v rest)) =
                Json.arr (l_pack_vals (.cons k v rest)) := by
              simp [l_pack_elem, hk]
            rw [hpk]
            show LuaValue.table (l_unpack_arr 1 (l_pack_vals (.cons k v rest)))
              = LuaValue.table (.cons k v rest)
            rw [roundtrip_arr 1 (.cons k v rest) hseq hsplit.2]
          · have hkf : k.isNum = false := by simpa using hk
            have hstr : strKeyEntries (.cons k v rest) = true := by
              have hor := hsplit.1
              rw [Bool.or_eq_true] at hor
              rcases hor with hs | hs
              · exfalso
                simp only [seqKeysFrom, Bool.and_eq_true, beq_iff_eq] at hs
                rw [hs.1] at hkf
                simp [LuaKey.isNum] at hkf
              · rw [Bool.and_eq_true] at hs
                exact hs.1
            have hpk : l_pack_elem (.table (.cons k v rest)) =
                Json.obj (l_pack_members (.cons k v rest)) := by
              simp [l_pack_elem, hkf]
            rw [hpk]
            show LuaValue.table (l_unpack_obj (l_pack_members (.cons k v rest)))
              = LuaValue.table (.cons k v rest)
            rw [roundtrip_obj (.cons k v rest) hstr hsplit.2]

theorem roundtrip_arr (i : Int) (es : LuaEntries)
    (hseq : seqKeysFrom i es = true) (hg : goodEntries es = true) :
    l_unpack_arr i (l_pack_vals es) = es := by
  cases es with
  | nil => rfl
  | cons k v rest =>
      have hks : k = LuaKey.num i ∧ seqKeysFrom (i + 1) rest = true := by
        have h2 := hseq
        simp only [seqKeysFrom, Bool.and_eq_true, beq_iff_eq] at h2
        exact h2
      have hgs : goodValue v = true ∧ goodEntries rest = true := by
        have h2 := hg
        simp only [goodEntries, Bool.and_eq_true] at h2
        exact h2
      have hpv : l_pack_vals (.cons k v rest) =
          .cons (l_pack_elem v) (l_pack_vals rest) := rfl
      rw [hpv, l_unpack_arr_cons_ne_null i _ _
        (l_pack_elem_ne_null v hgs.1)]
      rw [roundtrip_val v hgs.1, roundtrip_arr (i + 1) rest hks.2 hgs.2,
        hks.1]

theorem roundtrip_obj (es : LuaEntries)
    (hstr : strKeyEntries es = true) (hg : goodEntries es = true) :
    l_unpack_obj (l_pack_members es) = es := by
  cases es with
  | nil => rfl
  | cons k v rest =>
      have hks : k.isNum = false ∧ strKeyEntries rest = true := by
        have h2 := hstr
        simp only [strKeyEntries, Bool.and_eq_true, Bool.not_eq_true'] at h2
        exact h2
      have hgs : goodValue v = true ∧ goodEntries rest = true := by
        have h2 := hg
        simp only [goodEntries, Bool.and_eq_true] at h2
        exact h2
      obtain ⟨s, rfl⟩ : ∃ s, k = LuaKey.str s := by
        cases k with
        | num n => simp [LuaKey.isNum] at hks
        | str s => exact ⟨s, rfl⟩
      have hpm : l_pack_members (.cons (LuaKey.str s) v rest) =
          .cons s (l_pack_elem v) (l_pack_members rest) := rfl
      rw [hpm, l_unpack_obj_cons_ne_null s _ _
        (l_pack_elem_ne_null v hgs.1)]
      rw [roundtrip_val v hgs.1, roundtrip_obj rest hks.2 hgs.2]
end

/-- C5: marshalling then unmarshalling is the identity on the restricted
domain of strings, numbers, booleans, arrays of such and distinct-string-
keyed objects of such. -/
theorem unmarshal_marshal_roundtrip (v : LuaValue)
    (h : goodValue v = true) : l_unpack_json (l_pack_elem v) = v :=
  roundtrip_val v h

/-- Witness for C5: the round trip on a nested value holding a string, a
number, a boolean and an array. -/
theorem unmarshal_marshal_roundtrip_witness :
    goodValue (.table (.cons (.str "ok") (.bool true)
      (.cons (.str "count") (.num 3)
        (.cons (.str "xs") (.table (.cons (.num 1) (.str "a")
          (.cons (.num 2) (.num 5) .nil))) .nil)))) = true ∧
    l_unpack_json (l_pack_elem (.table (.cons (.str "ok") (.bool true)
      (.cons (.str "count") (.num 3)
        (.cons (.str "xs") (.table (.cons (.num 1) (.str "a")
          (.cons (.num 2) (.num 5) .nil))) .nil))))) =
      .table (.cons (.str "ok") (.bool true)
        (.cons (.str "count") (.num 3)
          (.cons (.str "xs") (.table (.cons (.num 1) (.str "a")
            (.cons (.num 2) (.num 5) .nil))) .nil))) :=
  ⟨by decide, unmarshal_marshal_roundtrip _ (by decide)⟩

/-- C9: marshalling any empty table yields the empty object, and no value at
all marshals to the empty array, so an empty array can never come back from
the round trip as an array. -/
theorem marshal_empty_table_is_object :
    l_pack_elem (.table .nil) = Json.obj .nil ∧
    ∀ v : LuaValue, l_pack_elem v ≠ Json.arr .nil := by
  refine ⟨rfl, ?_⟩
  intro v
  cases v with
  | str s => simp [l_pack_elem]
  | num n => simp [l_pack_elem]
  | bool b => simp [l_pack_elem]
  | nil => simp [l_pack_elem]
  | table es =>
      cases es with
      | nil => simp [l_pack_elem]
      | cons k v rest =>
          simp only [l_pack_elem]
          by_cases hk : k.isNum = true
          · simp only [hk, if_true]
            intro hc
            have := Json.arr.inj hc
            simp [l_pack_vals] at this
          · simp [hk]

def isArr : Json → Bool
  | .arr _ => true
  | _ => false

def isObj : Json → Bool
  | .obj _ => true
  | _ => false

/-- C6 counterexample: the table with the single entry at numeric key 2 does
not have contiguous integer keys starting at 1, yet `l_pack_elem` maps it to
an array (the decision looks only at the first iterated key being a number),
refuting the claimed "exactly when". -/
theorem l_pack_elem_array_not_contiguous :
    l_pack_elem (.table (.cons (.num 2) (.str "x") .nil)) =
      Json.arr (.cons (Json.str "x") .nil) ∧
    seqKeysFrom 1 (.cons (.num 2) (.str "x") .nil) = false := by
  exact ⟨rfl, rfl⟩

/-- C6 amended: strings, numbers and booleans map directly and any other
non-table type maps to null; a table maps to an array exactly when it is
non-empty and its first iterated key is a number, and to an object exactly
when it is empty or its first iterated key is not a number. -/
theorem l_pack_elem_type_mapping (v : LuaValue) :
    (isArr (l_pack_elem v) = true ↔
      ∃ k w rest, v = .table (.cons k w rest) ∧ k.isNum = true) ∧
    (isObj (l_pack_elem v) = true ↔
      (v = .table .nil ∨
        ∃ k w rest, v = .table (.cons k w rest) ∧ k.isNum = false)) ∧
    (∀ s, v = .str s → l_pack_elem v = Json.str s) ∧
    (∀ n, v = .num n → l_pack_elem v = Json.num n) ∧
    (∀ b, v = .bool b → l_pack_elem v = Json.bool b) ∧
    (v = .nil → l_pack_elem v = Json.null) := by
  refine ⟨?_, ?_, ?_, ?_, ?_, ?_⟩
  · constructor
    · intro h
      cases v with
      | str s => simp [l_pack_elem, isArr] at h
      | num n => simp [l_pack_elem, isArr] at h
      | bool b => simp [l_pack_elem, isArr] at h
      | nil => simp [l_pack_elem, isArr] at h
      | table es =>
          cases es with
          | nil => simp [l_pack_elem, isArr] at h
          | cons k w rest =>
              refine ⟨k, w, rest, rfl, ?_⟩
              by_cases hk : k.isNum = true
              · exact hk
              · exfalso
                simp [l_pack_elem, hk, isArr] at h
    · rintro ⟨k, w, rest, rfl, hk⟩
      simp [l_pack_elem, hk, isArr]
  · constructor
    · intro h
      cases v with
      | str s => simp [l_pack_elem, isObj] at h
      | num n => simp [l_pack_elem, isObj] at h
      | bool b => simp [l_pack_elem, isObj] at h
      | nil => simp [l_pack_elem, isObj] at h
      | table es =>
          cases es with
          | nil => exact Or.inl rfl
          | cons k w rest =>
              refine Or.inr ⟨k, w, rest, rfl, ?_⟩
              by_cases hk : k.isNum = true
              · exfalso
                simp [l_pack_elem, hk, isObj] at h
              · simpa using hk
    · intro h
      rcases h with h | ⟨k, w, rest, rfl, hk⟩
      · subst h; rfl
      · simp [l_pack_elem, hk, isObj]
  · intro s h; subst h; rfl
  · intro n h; subst h; rfl
  · intro b h; subst h; rfl
  · intro h; subst h; rfl

/-- Witness for C6's amended theorem: the non-contiguous table of the
counterexample is mapped to an array, and a string maps directly. -/
theorem l_pack_elem_type_mapping_witness :
    isArr (l_pack_elem (.table (.cons (.num 2) (.str "x") .nil))) = true ∧
    l_pack_elem (.str "a") = Json.str "a" := by
  constructor
  · exact (l_pack_elem_type_mapping
      (.table (.cons (.num 2) (.str "x") .nil))).1.mpr
      ⟨.num 2, .str "x", .nil, rfl, rfl⟩
  · exact (l_pack_elem_type_mapping (.str "a")).2.2.1 "a" rfl

/-! ### Worker broadcast (l_map)

The loop body of `l_map` performs, per sibling pipe and in this order: the
4-byte length-prefix write, the command write, the 4-byte reply-length read,
the reply-buffer allocation and the reply-body read; each checked by
`expr_checked`, which on failure stores `false` in the next reply slot and
continues with the next sibling.  A `SiblingPipe` records the outcomes of
those five calls; `decode` stands for the external `json_decode`. -/

structure SiblingPipe where
  writeLen : Bool
  writeCmd : Bool
  readLen : Option Nat
  mallocOk : Bool
  readBody : Option String
  deriving DecidableEq, Repr

/-- Reply-slot value one iteration of the `l_map` loop produces for one
sibling: `false` on any failed call, otherwise the decoded reply
(`l_unpack_json`) or, when decoding fails, the raw reply text. -/
def sibling_entry (decode : String → Option Json) (s : SiblingPipe) :
    LuaValue :=
  if !s.writeLen then LuaValue.bool false
  else if !s.writeCmd then LuaValue.bool false
  else match s.readLen with
    | some _ =>
        if !s.mallocOk then LuaValue.bool false
        else match s.readBody with
          | some body =>
              match decode body with
              | some root => l_unpack_json root
              | none => LuaValue.str body
          | none => LuaValue.bool false
    | none => LuaValue.bool false

/-- Translation of `l_map` (engine.c) as the reply table it builds.
`localRes` is what `lua_settop(L, ntop + 1)` leaves on top after the local
evaluation: the single residual value, or nil when the command produced no
value (the settop pad).  `lua_rawseti(t, 1)` with a nil value stores
nothing, leaving the table empty with `lua_rawlen` 0, so the initial table
holds the local result only when it is not nil.  The loop then appends one
slot per sibling at `lua_rawlen + 1`; every appended entry (`false`, a
decoded value or a string, never nil) extends the contiguous prefix, so the
table is the list below. -/
def l_map (decode : String → Option Json) (localRes : LuaValue)
    (siblings : List SiblingPipe) : List LuaValue :=
  siblings.foldl (fun acc s => acc ++ [sibling_entry decode s])
    (if localRes = LuaValue.nil then [] else [localRes])

def sibling_failed (s : SiblingPipe) : Prop :=
  s.writeLen = false ∨ s.writeCmd = false ∨ s.readLen = none ∨
    s.readBody = none

theorem l_map_eq_append_map (decode : String → Option Json)
    (localRes : LuaValue) (siblings : List SiblingPipe) :
    l_map decode localRes siblings =
      (if localRes = LuaValue.nil then [] else [localRes]) ++
        siblings.map (sibling_entry decode) := by
  suffices h : ∀ acc : List LuaValue,
      siblings.foldl (fun acc s => acc ++ [sibling_entry decode s]) acc =
        acc ++ siblings.map (sibling_entry decode) by
    simpa [l_map] using
      h (if localRes = LuaValue.nil then [] else [localRes])
  induction siblings with
  | nil => intro acc; simp
  | cons s rest ih => intro acc; simp [List.foldl_cons, ih]

theorem sibling_entry_of_failed (decode : String → Option Json)
    (s : SiblingPipe) (h : sibling_failed s) :
    sibling_entry decode s = LuaValue.bool false := by
  obtain ⟨w1, w2, rl, mo, rb⟩ := s
  rcases h with h | h | h | h
  · simp only at h; subst h; rfl
  · simp only at h; subst h
    cases w1 <;> rfl
  · simp only at h; subst h
    cases w1 <;> cases w2 <;> rfl
  · simp only at h; subst h
    cases w1 <;> cases w2 <;> cases mo <;> cases rl <;> rfl

/-- C2 counterexample: a broadcast whose local evaluation produced no value.
The `lua_settop` pad leaves nil on top, `lua_rawseti(t, 1)` with nil stores
nothing and `lua_rawlen` stays 0, so with a single sibling whose command
write fails the failure marker lands at table index 1 — the slot the claim
reserves for the local result — the sibling's claimed slot 2 stays empty,
and the reply set has one entry instead of the claimed
number-of-siblings-plus-one. -/
theorem l_map_nil_local_breaks_slot_discipline :
    l_map (fun _ => none) LuaValue.nil [⟨true, false, none, true, none⟩] =
      [LuaValue.bool false] ∧
    (l_map (fun _ => none) LuaValue.nil
      [⟨true, false, none, true, none⟩]).length ≠ 1 + 1 ∧
    (l_map (fun _ => none) LuaValue.nil
      [⟨true, false, none, true, none⟩])[1]? ≠
      some (LuaValue.bool false) := by
  refine ⟨rfl, by decide, by decide⟩

/-- C2 amended: a failed length-prefix write, command write or reply read
for one sibling puts the failure marker `false` in exactly that sibling's
entry of the reply set while the broadcast continues, with one correctly
populated entry per sibling in registration order and every other entry
unaffected.  When the local evaluation produced a value, that value fills
slot 1 and sibling i occupies slot i + 1 (length is the number of siblings
plus one); when it produced no value (nil, the settop pad), slot 1 is left
unset and every sibling entry lands one slot earlier, sibling i occupying
slot i (length is exactly the number of siblings). -/
theorem l_map_isolates_sibling_failure (decode : String → Option Json)
    (localRes : LuaValue) (siblings : List SiblingPipe) (k : Nat)
    (hk : k < siblings.length)
    (hfail : sibling_failed (siblings.get ⟨k, hk⟩)) :
    l_map decode localRes siblings =
      (if localRes = LuaValue.nil then [] else [localRes]) ++
        siblings.map (sibling_entry decode) ∧
    (localRes ≠ LuaValue.nil →
      (l_map decode localRes siblings).length = siblings.length + 1 ∧
      (l_map decode localRes siblings)[0]? = some localRes ∧
      (l_map decode localRes siblings)[k + 1]? =
        some (LuaValue.bool false) ∧
      (∀ j, (hj : j < siblings.length) →
        (l_map decode localRes siblings)[j + 1]? =
          some (sibling_entry decode (siblings.get ⟨j, hj⟩)))) ∧
    (localRes = LuaValue.nil →
      (l_map decode localRes siblings).length = siblings.length ∧
      (l_map decode localRes siblings)[k]? =
        some (LuaValue.bool false) ∧
      (∀ j, (hj : j < siblings.length) →
        (l_map decode localRes siblings)[j]? =
          some (sibling_entry decode (siblings.get ⟨j, hj⟩)))) := by
  have hmap := l_map_eq_append_map decode localRes siblings
  refine ⟨hmap, ?_, ?_⟩
  · intro hnn
    have hcons : l_map decode localRes siblings =
        localRes :: siblings.map (sibling_entry decode) := by
      rw [hmap, if_neg hnn]
      rfl
    have hslot : ∀ j, (hj : j < siblings.length) →
        (l_map decode localRes siblings)[j + 1]? =
          some (sibling_entry decode (siblings.get ⟨j, hj⟩)) := by
      intro j hj
      rw [hcons, List.getElem?_cons_succ, List.getElem?_map,
        List.getElem?_eq_getElem hj]
      rfl
    refine ⟨by simp [hcons], by rw [hcons]; simp, ?_, hslot⟩
    rw [hslot k hk, sibling_entry_of_failed decode _ hfail]
  · intro hn
    have hflat : l_map decode localRes siblings =
        siblings.map (sibling_entry decode) := by
      rw [hmap, if_pos hn]
      rfl
    have hslot : ∀ j, (hj : j < siblings.length) →
        (l_map decode localRes siblings)[j]? =
          some (sibling_entry decode (siblings.get ⟨j, hj⟩)) := by
      intro j hj
      rw [hflat, List.getElem?_map, List.getElem?_eq_getElem hj]
      rfl
    refine ⟨by simp [hflat], ?_, hslot⟩
    rw [hslot k hk, sibling_entry_of_failed decode _ hfail]

/-- Witness for C2's amended theorem: two siblings, the second failing its
command write and reply read.  With a non-nil local result the reply set is
that result, the first sibling's raw-text reply (decode failing falls back
to the raw string) and the failure marker; with a nil local result the two
sibling entries shift down one slot. -/
theorem l_map_isolates_sibling_failure_witness :
    l_map (fun _ => none) (LuaValue.num 7)
      [⟨true, true, some 2, true, some "hi"⟩,
        ⟨true, false, none, true, none⟩] =
      [LuaValue.num 7, LuaValue.str "hi", LuaValue.bool false] ∧
    l_map (fun _ => none) LuaValue.nil
      [⟨true, true, some 2, true, some "hi"⟩,
        ⟨true, false, none, true, none⟩] =
      [LuaValue.str "hi", LuaValue.bool false] := by
  constructor
  · have h := l_map_isolates_sibling_failure (fun _ => none)
      (LuaValue.num 7)
      [⟨true, true, some 2, true, some "hi"⟩,
        ⟨true, false, none, true, none⟩]
      1 (by decide) (Or.inr (Or.inl rfl))
    rw [h.1]
    rfl
  · have h := l_map_isolates_sibling_failure (fun _ => none) LuaValue.nil
      [⟨true, true, some 2, true, some "hi"⟩,
        ⟨true, false, none, true, none⟩]
      1 (by decide) (Or.inr (Or.inl rfl))
    rw [h.1]
    rfl

/-! ### Engine lifecycle (engine_init, engine_stop) and engine_cmd -/

inductive InitStep where
  | init_state
  | init_resolver
  | network_init
  | engine_deinit
  deriving DecidableEq, Repr

/-- Translation of `engine_init` (engine.c) as the trace of the steps it
runs plus its return value.  `stateRet` and `resolverRet` are the values the
two construction steps would return.  The code checks `init_state`'s result
and calls `engine_deinit` on failure but does not return there; it falls
through into `init_resolver`.  The `engine == NULL` guard (EINVAL) concerns
pointer validity and is not modelled. -/
def engine_init (stateRet resolverRet : Int) : List InitStep × Int :=
  let t1 := [InitStep.init_state]
  let t2 := if stateRet ≠ 0 then t1 ++ [InitStep.engine_deinit] else t1
  let t3 := t2 ++ [InitStep.init_resolver]
  if resolverRet ≠ 0 then (t3 ++ [InitStep.engine_deinit], resolverRet)
  else (t3 ++ [InitStep.network_init], resolverRet)

/-- C4: when the evaluation-environment step (`init_state`) fails with
ENOMEM, `engine_init` tears the engine down but then still executes
`init_resolver` and `network_init` on the destroyed engine and returns 0
instead of the first error — the missing early return after the first
`engine_deinit` makes the code contradict the specified (and clearly
intended) stop-at-first-error behaviour. -/
theorem engine_init_swallows_first_error :
    engine_init (kr_error ENOMEM) 0 =
      ([InitStep.init_state, InitStep.engine_deinit,
        InitStep.init_resolver, InitStep.network_init], 0) ∧
    (engine_init (kr_error ENOMEM) 0).2 ≠ kr_error ENOMEM := by
  constructor
  · decide
  · decide

structure StopEngine where
  updater : Bool
  deriving DecidableEq, Repr

inductive StopEffect where
  | uv_timer_stop
  | uv_close
  | uv_stop_loop
  deriving DecidableEq, Repr

/-- Translation of `engine_stop` (engine.c): a null engine does nothing;
otherwise, when the updater field is set the timer handle is stopped and
closed, and the default loop is asked to stop.  The function writes no field
of the engine; in particular `updater` keeps its value. -/
def engine_stop : Option StopEngine → Option StopEngine × List StopEffect
  | none => (none, [])
  | some e =>
      (some e,
        (if e.updater then [StopEffect.uv_timer_stop, StopEffect.uv_close]
         else []) ++ [StopEffect.uv_stop_loop])

/-- C7 counterexample: on an engine whose maintenance timer is armed, a
second `engine_stop` call is not a no-op: because the first call left the
updater field set, the second call issues `uv_timer_stop` and `uv_close` on
the already-closed timer handle again (and asks the loop to stop again). -/
theorem engine_stop_not_idempotent :
    (engine_stop (engine_stop (some ⟨true⟩)).1).2 =
      [StopEffect.uv_timer_stop, StopEffect.uv_close,
        StopEffect.uv_stop_loop] ∧
    (engine_stop (engine_stop (some ⟨true⟩)).1).2 ≠ [] ∧
    StopEffect.uv_close ∈ (engine_stop (engine_stop (some ⟨true⟩)).1).2 := by
  refine ⟨rfl, by decide, by decide⟩

/-- C7 amended: `engine_stop` leaves the engine state itself unchanged, and
a repeated call performs exactly the same effects as the first one — on an
engine with an armed timer handle this re-issues stop and close on that same
handle, so stopping twice is not effect-free; only the engine struct is
untouched either time. -/
theorem engine_stop_repeats_effects (e : Option StopEngine) :
    (engine_stop e).1 = e ∧
    (engine_stop ((engine_stop e).1)).2 = (engine_stop e).2 := by
  cases e with
  | none => exact ⟨rfl, rfl⟩
  | some eng => exact ⟨rfl, rfl⟩

structure lua_State where
  id : Nat
  deriving DecidableEq, Repr

structure EvalCall where
  cmd : String
  raw : Bool
  deriving DecidableEq, Repr

/-- Translation of `engine_cmd` (engine.c): with a null Lua state it returns
`kr_error(ENOEXEC)` before touching anything; otherwise it pushes
`eval_cmd`, the command string and the raw flag and returns the result of
`engine_pcall` (`pcallRet`, a parameter since the interpreter is external).
The trace lists the evaluations performed. -/
def engine_cmd (pcallRet : Int) (L : Option lua_State) (str : String)
    (raw : Bool) : Int × List EvalCall :=
  match L with
  | none => (kr_error ENOEXEC, [])
  | some _ => (pcallRet, [⟨str, raw⟩])

/-- C10: for every command string and raw flag, evaluating with no
evaluation environment returns the no-execution error `kr_error(ENOEXEC)`
and performs no evaluation at all. -/
theorem engine_cmd_null_state (pcallRet : Int) (str : String) (raw : Bool) :
    engine_cmd pcallRet none str raw = (kr_error ENOEXEC, []) := rfl

/-- Witness for C7's amended theorem at an engine with an armed timer. -/
theorem engine_stop_repeats_effects_witness :
    (engine_stop (some ⟨true⟩)).1 = some ⟨true⟩ ∧
    (engine_stop ((engine_stop (some ⟨true⟩)).1)).2 =
      (engine_stop (some ⟨true⟩)).2 :=
  engine_stop_repeats_effects (some ⟨true⟩)

/-- Witness for C9 at concrete values: the empty table marshals to the empty
object and a sample value does not marshal to the empty array. -/
theorem marshal_empty_table_is_object_witness :
    l_pack_elem (.table .nil) = Json.obj .nil ∧
    l_pack_elem (.str "a") ≠ Json.arr .nil :=
  ⟨marshal_empty_table_is_object.1,
    marshal_empty_table_is_object.2 (.str "a")⟩

/-- Witness for C10 at a concrete command. -/
theorem engine_cmd_null_state_witness :
    engine_cmd 0 none "quit()" false = (kr_error ENOEXEC, []) :=
  engine_cmd_null_state 0 "quit()" false

end KnotResolver
